import Mathlib

/-!
Verification of the plan execution engine of this repository.

The definitions below are a shallow embedding of the progress state machine
(`writeStepStatus` in `src/app/api/chat/route.ts` and
`ProgressWriter.writeStepStatus` in the plan progress module, which share the
same transition semantics), the snapshot initializer (`writeOutlineSnapshot` /
`writePlanSnapshot` / `ProgressWriter.writeSnapshot`), the single-step executor
(`runStep` in `route.ts`), and the orchestrator loop that drives the steps in
order.  Timestamps (`Date.now()`) are modelled as natural numbers; the
JavaScript truthiness test `if (prevStep?.endTime)` is translated literally,
so an `endTime` of `0` counts as absent.
-/

namespace PlanEngine

/-- Step status as stored in the progress record. -/
inductive StepStatus where
  | pending
  | inProgress
  | completed
  | failed
  deriving Repr, DecidableEq

/-- A free-form action entry attached to a step (label plus optional value). -/
structure PlanAction where
  label : String
  value : Option String
  deriving Repr, DecidableEq

/-- Per-step progress entry, mirroring the TypeScript step shape:
status, optional actions, startTime, endTime, toolCalls, errorMessage. -/
structure StepProgress where
  status : StepStatus
  actions : Option (List PlanAction)
  startTime : Option Nat
  endTime : Option Nat
  toolCalls : Option (List String)
  errorMessage : Option String
  deriving Repr, DecidableEq

/-- The all-undefined pending placeholder pushed by the defensive-growth loop
and used for fresh snapshot steps. -/
def pendingStep : StepProgress :=
  { status := .pending, actions := none, startTime := none, endTime := none,
    toolCalls := none, errorMessage := none }

/-- A plan's progress record: plan identifier, ordered step entries, and the
optional current step pointer. -/
structure PlanProgress where
  planId : String
  steps : List StepProgress
  currentStepIndex : Option Nat
  deriving Repr, DecidableEq

/-- The status argument accepted by `writeStepStatus`. -/
inductive WriteStatus where
  | inProgress
  | completed
  | failed
  deriving Repr, DecidableEq

/-- Total lookup of the step at an index, returning the pending placeholder
out of range (the TypeScript code uses `?? defaultPending` the same way). -/
def stepAt : List StepProgress → Nat → StepProgress
  | [], _ => pendingStep
  | s :: _, 0 => s
  | _ :: rest, n + 1 => stepAt rest n

/-- In-bounds index assignment, `current.steps[idx] = v`. -/
def setAt : List StepProgress → Nat → StepProgress → List StepProgress
  | [], _, _ => []
  | _ :: rest, 0, a => a :: rest
  | s :: rest, n + 1, a => s :: setAt rest n a

/-- The defensive-growth while loop: push pending placeholders until
`steps.length > stepIndex`. -/
def padSteps : List StepProgress → Nat → List StepProgress
  | [], 0 => [pendingStep]
  | [], n + 1 => pendingStep :: padSteps [] n
  | s :: rest, 0 => s :: rest
  | s :: rest, n + 1 => s :: padSteps rest n

/-- Reset applied to a stale concurrently in-progress step: back to pending
with both timestamps cleared (other fields kept). -/
def resetStale (s : StepProgress) : StepProgress :=
  if s.status = .inProgress then
    { s with status := .pending, startTime := none, endTime := none }
  else s

/-- The clearing pass of the `in_progress` transition, walking the array with
its running index `j`; the target index is left untouched. -/
def clearAux (idx : Nat) : Nat → List StepProgress → List StepProgress
  | _, [] => []
  | j, s :: rest => (if j = idx then s else resetStale s) :: clearAux idx (j + 1) rest

/-- Clear every step other than `idx` that is currently in progress. -/
def clearOther (idx : Nat) (l : List StepProgress) : List StepProgress :=
  clearAux idx 0 l

/-- Start time chosen for a step entering `in_progress`: "now", unless the
step has a predecessor whose `endTime` is recorded (and truthy), in which
case that end time is inherited.  The predecessor is read from the array
after the clearing pass, exactly as the source does. -/
def inheritedStart (steps : List StepProgress) (idx now : Nat) : Nat :=
  if idx = 0 then now
  else
    match (stepAt (clearOther idx (padSteps steps idx)) (idx - 1)).endTime with
    | some t => if t = 0 then now else t
    | none => now

/-- The authoritative status transition, translated from `writeStepStatus` in
`route.ts` (identically implemented by `ProgressWriter.writeStepStatus`):
grow the array, then branch on the requested status.  `now` stands for
`Date.now()` at the time of the call. -/
def writeStepStatus (r : PlanProgress) (idx : Nat) (st : WriteStatus)
    (err : Option String) (now : Nat) : PlanProgress :=
  let padded := padSteps r.steps idx
  let prev := stepAt padded idx
  match st with
  | .inProgress =>
    let cleared := clearOther idx padded
    { r with
      steps := setAt cleared idx
        { prev with status := .inProgress, startTime := some (inheritedStart r.steps idx now),
                    endTime := none, errorMessage := none },
      currentStepIndex := some idx }
  | .completed =>
    let steps1 := setAt padded idx
      { prev with status := .completed, endTime := some now, errorMessage := none }
    { r with
      steps := steps1,
      currentStepIndex := if idx + 1 < steps1.length then some (idx + 1) else none }
  | .failed =>
    { r with
      steps := setAt padded idx
        { prev with status := .failed, endTime := some now, errorMessage := err },
      currentStepIndex := none }

/-- The in-memory progress store, keyed by plan identifier. -/
abbrev Store := String → Option PlanProgress

def emptyStore : Store := fun _ => none

/-- Fresh all-pending record created by the snapshot initializers:
one pending entry per plan step, pointer at 0 when the plan is nonempty. -/
def initRecord (pid : String) (n : Nat) : PlanProgress :=
  { planId := pid, steps := List.replicate n pendingStep,
    currentStepIndex := if n = 0 then none else some 0 }

def initStore (pid : String) (n : Nat) : Store :=
  fun q => if q = pid then some (initRecord pid n) else none

/-- Store-level `writeStepStatus`: unknown plan identifiers are reported and
left unmodified; otherwise the record is transitioned and stored back. -/
def storeWriteStepStatus (store : Store) (pid : String) (idx : Nat)
    (st : WriteStatus) (err : Option String) (now : Nat) : Store :=
  match store pid with
  | none => store
  | some r => fun q => if q = pid then some (writeStepStatus r idx st err now) else store q

/-! ### Toolkit lemmas for the list operations -/

@[simp] theorem stepAt_nil (j : Nat) : stepAt [] j = pendingStep := by
  cases j <;> rfl

@[simp] theorem stepAt_cons_zero (a : StepProgress) (l : List StepProgress) :
    stepAt (a :: l) 0 = a := rfl

@[simp] theorem stepAt_cons_succ (a : StepProgress) (l : List StepProgress) (j : Nat) :
    stepAt (a :: l) (j + 1) = stepAt l j := rfl

theorem stepAt_replicate (n j : Nat) : stepAt (List.replicate n pendingStep) j = pendingStep := by
  induction n generalizing j with
  | zero => simp [List.replicate]
  | succ m ih =>
    cases j with
    | zero => simp [List.replicate]
    | succ j => simpa [List.replicate] using ih j

@[simp] theorem setAt_length (l : List StepProgress) (idx : Nat) (a : StepProgress) :
    (setAt l idx a).length = l.length := by
  induction l generalizing idx with
  | nil => rfl
  | cons s rest ih =>
    cases idx with
    | zero => rfl
    | succ n => simp [setAt, ih]

theorem stepAt_setAt_self (l : List StepProgress) (idx : Nat) (a : StepProgress)
    (h : idx < l.length) : stepAt (setAt l idx a) idx = a := by
  induction l generalizing idx with
  | nil => simp at h
  | cons s rest ih =>
    cases idx with
    | zero => rfl
    | succ n =>
      simp only [setAt, stepAt_cons_succ]
      exact ih n (by simpa using h)

theorem stepAt_setAt_ne (l : List StepProgress) (idx j : Nat) (a : StepProgress)
    (h : j ≠ idx) : stepAt (setAt l idx a) j = stepAt l j := by
  induction l generalizing idx j with
  | nil => simp [setAt]
  | cons s rest ih =>
    cases idx with
    | zero =>
      cases j with
      | zero => exact absurd rfl h
      | succ j => rfl
    | succ n =>
      cases j with
      | zero => rfl
      | succ j =>
        simp only [setAt, stepAt_cons_succ]
        exact ih n j (fun hc => h (by simp [hc]))

theorem padSteps_length (l : List StepProgress) (idx : Nat) :
    (padSteps l idx).length = max l.length (idx + 1) := by
  induction l generalizing idx with
  | nil =>
    induction idx with
    | zero => rfl
    | succ n ihn => simp [padSteps, ihn]; try omega
  | cons s rest ih =>
    cases idx with
    | zero => simp [padSteps]; try omega
    | succ n => simp [padSteps, ih]; try omega

theorem stepAt_padSteps (l : List StepProgress) (idx j : Nat) :
    stepAt (padSteps l idx) j = stepAt l j := by
  induction l generalizing idx j with
  | nil =>
    induction idx generalizing j with
    | zero => cases j <;> simp [padSteps]
    | succ n ihn =>
      cases j with
      | zero => simp [padSteps]
      | succ j => simpa [padSteps] using ihn j
  | cons s rest ih =>
    cases idx with
    | zero => simp [padSteps]
    | succ n =>
      cases j with
      | zero => simp [padSteps]
      | succ j => simpa [padSteps] using ih n j

@[simp] theorem resetStale_pendingStep : resetStale pendingStep = pendingStep := by
  simp [resetStale, pendingStep]

theorem resetStale_status_ne (s : StepProgress) : (resetStale s).status ≠ .inProgress := by
  by_cases h : s.status = .inProgress <;> simp [resetStale, h]

theorem clearAux_length (idx : Nat) (l : List StepProgress) :
    ∀ j, (clearAux idx j l).length = l.length := by
  induction l with
  | nil => intro j; rfl
  | cons s rest ih => intro j; simp [clearAux, ih]

theorem stepAt_clearAux (idx : Nat) (l : List StepProgress) :
    ∀ j i, stepAt (clearAux idx j l) i =
      if j + i = idx then stepAt l i else resetStale (stepAt l i) := by
  induction l with
  | nil =>
    intro j i
    by_cases h : j + i = idx <;> simp [clearAux, h]
  | cons s rest ih =>
    intro j i
    cases i with
    | zero =>
      by_cases h : j = idx <;> simp [clearAux, h]
    | succ i =>
      have harith : j + 1 + i = j + (i + 1) := by omega
      simpa [clearAux, harith] using ih (j + 1) i

theorem stepAt_clearOther (idx : Nat) (l : List StepProgress) (i : Nat) :
    stepAt (clearOther idx l) i =
      if i = idx then stepAt l i else resetStale (stepAt l i) := by
  have := stepAt_clearAux idx l 0 i
  simpa [clearOther, Nat.zero_add] using this

theorem clearOther_length (idx : Nat) (l : List StepProgress) :
    (clearOther idx l).length = l.length := clearAux_length idx l 0

theorem idx_lt_padSteps_length (l : List StepProgress) (idx : Nat) :
    idx < (padSteps l idx).length := by
  rw [padSteps_length]; omega

theorem stepAt_ge_length (l : List StepProgress) (j : Nat) (h : l.length ≤ j) :
    stepAt l j = pendingStep := by
  induction l generalizing j with
  | nil => simp
  | cons s rest ih =>
    cases j with
    | zero => simp at h
    | succ j => exact ih j (by simpa using h)

theorem resetStale_of_not_inProgress (s : StepProgress) (h : s.status ≠ .inProgress) :
    resetStale s = s := by
  simp [resetStale, h]

/-! ### Characterization of `writeStepStatus` -/

theorem ws_planId (r : PlanProgress) (idx : Nat) (st : WriteStatus)
    (err : Option String) (now : Nat) :
    (writeStepStatus r idx st err now).planId = r.planId := by
  cases st <;> rfl

theorem ws_length (r : PlanProgress) (idx : Nat) (st : WriteStatus)
    (err : Option String) (now : Nat) :
    (writeStepStatus r idx st err now).steps.length = max r.steps.length (idx + 1) := by
  cases st <;>
    simp [writeStepStatus, setAt_length, clearOther_length, padSteps_length]

theorem stepAt_ws_inProgress_self (r : PlanProgress) (idx : Nat)
    (err : Option String) (now : Nat) :
    stepAt (writeStepStatus r idx .inProgress err now).steps idx =
      { stepAt r.steps idx with
        status := .inProgress,
        startTime := some (inheritedStart r.steps idx now),
        endTime := none, errorMessage := none } := by
  have hlen : idx < (clearOther idx (padSteps r.steps idx)).length := by
    rw [clearOther_length]; exact idx_lt_padSteps_length _ _
  simp [writeStepStatus, stepAt_setAt_self _ _ _ hlen, stepAt_padSteps]

theorem stepAt_ws_inProgress_other (r : PlanProgress) (idx j : Nat)
    (err : Option String) (now : Nat) (h : j ≠ idx) :
    stepAt (writeStepStatus r idx .inProgress err now).steps j =
      resetStale (stepAt r.steps j) := by
  simp [writeStepStatus, stepAt_setAt_ne _ _ _ _ h, stepAt_clearOther, h, stepAt_padSteps]

theorem stepAt_ws_completed_self (r : PlanProgress) (idx : Nat)
    (err : Option String) (now : Nat) :
    stepAt (writeStepStatus r idx .completed err now).steps idx =
      { stepAt r.steps idx with
        status := .completed,
        endTime := some now, errorMessage := none } := by
  have hlen : idx < (padSteps r.steps idx).length := idx_lt_padSteps_length _ _
  simp [writeStepStatus, stepAt_setAt_self _ _ _ hlen, stepAt_padSteps]

theorem stepAt_ws_completed_other (r : PlanProgress) (idx j : Nat)
    (err : Option String) (now : Nat) (h : j ≠ idx) :
    stepAt (writeStepStatus r idx .completed err now).steps j = stepAt r.steps j := by
  simp [writeStepStatus, stepAt_setAt_ne _ _ _ _ h, stepAt_padSteps]

theorem stepAt_ws_failed_self (r : PlanProgress) (idx : Nat)
    (err : Option String) (now : Nat) :
    stepAt (writeStepStatus r idx .failed err now).steps idx =
      { stepAt r.steps idx with
        status := .failed,
        endTime := some now, errorMessage := err } := by
  have hlen : idx < (padSteps r.steps idx).length := idx_lt_padSteps_length _ _
  simp [writeStepStatus, stepAt_setAt_self _ _ _ hlen, stepAt_padSteps]

theorem stepAt_ws_failed_other (r : PlanProgress) (idx j : Nat)
    (err : Option String) (now : Nat) (h : j ≠ idx) :
    stepAt (writeStepStatus r idx .failed err now).steps j = stepAt r.steps j := by
  simp [writeStepStatus, stepAt_setAt_ne _ _ _ _ h, stepAt_padSteps]

theorem ws_currentStepIndex_inProgress (r : PlanProgress) (idx : Nat)
    (err : Option String) (now : Nat) :
    (writeStepStatus r idx .inProgress err now).currentStepIndex = some idx := rfl

theorem ws_currentStepIndex_completed (r : PlanProgress) (idx : Nat)
    (err : Option String) (now : Nat) :
    (writeStepStatus r idx .completed err now).currentStepIndex =
      if idx + 1 < (writeStepStatus r idx .completed err now).steps.length then
        some (idx + 1)
      else none := by
  simp [writeStepStatus, setAt_length]

theorem ws_currentStepIndex_failed (r : PlanProgress) (idx : Nat)
    (err : Option String) (now : Nat) :
    (writeStepStatus r idx .failed err now).currentStepIndex = none := rfl

/-! ### Reachability and the record invariants -/

/-- Progress records reachable from a fresh snapshot by any sequence of
`writeStepStatus` calls. -/
inductive Reachable : PlanProgress → Prop where
  | init (pid : String) (n : Nat) : Reachable (initRecord pid n)
  | write {r : PlanProgress} (h : Reachable r) (idx : Nat) (st : WriteStatus)
      (err : Option String) (now : Nat) : Reachable (writeStepStatus r idx st err now)

/-- Timestamp discipline that actually holds of every reachable step:
`endTime` is recorded exactly on the terminal statuses, `startTime` is
absent while pending and present while in progress. -/
def stepTimesOk (s : StepProgress) : Prop :=
  (s.endTime ≠ none ↔ (s.status = .completed ∨ s.status = .failed)) ∧
  (s.status = .pending → s.startTime = none) ∧
  (s.status = .inProgress → s.startTime ≠ none)

theorem stepTimesOk_pendingStep : stepTimesOk pendingStep := by
  simp [stepTimesOk, pendingStep]

theorem stepTimesOk_resetStale (s : StepProgress) (h : stepTimesOk s) :
    stepTimesOk (resetStale s) := by
  by_cases hs : s.status = .inProgress
  · simp [resetStale, hs, stepTimesOk]
  · simpa [resetStale, hs] using h

theorem reachable_timesOk {r : PlanProgress} (h : Reachable r) :
    ∀ j, stepTimesOk (stepAt r.steps j) := by
  induction h with
  | init pid n =>
    intro j
    simpa [initRecord, stepAt_replicate] using stepTimesOk_pendingStep
  | write h idx st err now ih =>
    intro j
    by_cases hj : j = idx
    · subst hj
      cases st with
      | inProgress => simp [stepAt_ws_inProgress_self, stepTimesOk]
      | completed => simp [stepAt_ws_completed_self, stepTimesOk]
      | failed => simp [stepAt_ws_failed_self, stepTimesOk]
    · cases st with
      | inProgress =>
        rw [stepAt_ws_inProgress_other _ _ _ _ _ hj]
        exact stepTimesOk_resetStale _ (ih j)
      | completed => rw [stepAt_ws_completed_other _ _ _ _ _ hj]; exact ih j
      | failed => rw [stepAt_ws_failed_other _ _ _ _ _ hj]; exact ih j

theorem reachable_atMostOne {r : PlanProgress} (h : Reachable r) :
    ∀ i j, (stepAt r.steps i).status = .inProgress →
      (stepAt r.steps j).status = .inProgress → i = j := by
  induction h with
  | init pid n =>
    intro i j hi _
    exfalso
    have h1 : stepAt (initRecord pid n).steps i = pendingStep := by
      simp [initRecord, stepAt_replicate]
    rw [h1] at hi
    simp [pendingStep] at hi
  | write h idx st err now ih =>
    intro i j hi hj
    cases st with
    | inProgress =>
      have hii : i = idx := by
        by_contra hc
        rw [stepAt_ws_inProgress_other _ _ _ _ _ hc] at hi
        exact resetStale_status_ne _ hi
      have hjj : j = idx := by
        by_contra hc
        rw [stepAt_ws_inProgress_other _ _ _ _ _ hc] at hj
        exact resetStale_status_ne _ hj
      rw [hii, hjj]
    | completed =>
      have hii : i ≠ idx := by
        intro hc; subst hc; rw [stepAt_ws_completed_self] at hi; simp at hi
      have hjj : j ≠ idx := by
        intro hc; subst hc; rw [stepAt_ws_completed_self] at hj; simp at hj
      rw [stepAt_ws_completed_other _ _ _ _ _ hii] at hi
      rw [stepAt_ws_completed_other _ _ _ _ _ hjj] at hj
      exact ih i j hi hj
    | failed =>
      have hii : i ≠ idx := by
        intro hc; subst hc; rw [stepAt_ws_failed_self] at hi; simp at hi
      have hjj : j ≠ idx := by
        intro hc; subst hc; rw [stepAt_ws_failed_self] at hj; simp at hj
      rw [stepAt_ws_failed_other _ _ _ _ _ hii] at hi
      rw [stepAt_ws_failed_other _ _ _ _ _ hjj] at hj
      exact ih i j hi hj

/-! ### Snapshot initializer -/

/-- Event kinds emitted by the snapshot initializer: the plan (or outline)
snapshot itself, followed by the initial progress record. -/
inductive SnapKind where
  | planSnap
  | progressSnap
  deriving Repr, DecidableEq

structure SnapEvent where
  kind : SnapKind
  id : String
  deriving Repr, DecidableEq

/-- State threaded through the snapshot initializer: the set of plan ids
already emitted, the progress store, and the stream of emitted events. -/
structure EmitState where
  emitted : List String
  store : Store
  events : List SnapEvent

/-- The snapshot initializer, translated from `writeOutlineSnapshot` /
`writePlanSnapshot` in `route.ts` and `ProgressWriter.writeSnapshot`:
a plan identifier already seen is a complete no-op; otherwise the id is
recorded, an all-pending record of one entry per plan step is stored, and
the plan snapshot plus the initial progress record are emitted. -/
def writeSnapshot (s : EmitState) (pid : String) (n : Nat) : EmitState :=
  if pid ∈ s.emitted then s
  else
    { emitted := pid :: s.emitted,
      store := fun q => if q = pid then some (initRecord pid n) else s.store q,
      events := s.events ++ [⟨.planSnap, pid⟩, ⟨.progressSnap, pid⟩] }

/-! ### Claims about the progress writer -/

/-- C2: after every `writeStepStatus` call at most one step is `in_progress`:
the `in_progress` transition first resets every other currently in-progress
step to `pending` with timestamps cleared, and consequently no reachable
record contains two simultaneously in-progress steps. -/
theorem C2_single_in_flight :
    (∀ (r : PlanProgress) (idx : Nat) (err : Option String) (now j : Nat), j ≠ idx →
      (stepAt (writeStepStatus r idx .inProgress err now).steps j).status ≠ .inProgress ∧
      ((stepAt r.steps j).status = .inProgress →
        stepAt (writeStepStatus r idx .inProgress err now).steps j =
          { stepAt r.steps j with
            status := .pending, startTime := none, endTime := none })) ∧
    (∀ r : PlanProgress, Reachable r → ∀ i j : Nat,
      (stepAt r.steps i).status = .inProgress →
      (stepAt r.steps j).status = .inProgress → i = j) := by
  refine ⟨fun r idx err now j hj => ⟨?_, ?_⟩, fun r h => reachable_atMostOne h⟩
  · rw [stepAt_ws_inProgress_other _ _ _ _ _ hj]
    exact resetStale_status_ne _
  · intro hs
    rw [stepAt_ws_inProgress_other _ _ _ _ _ hj]
    simp [resetStale, hs]

/-- Witness for C2: starting step 1 while step 0 of a two-step record is in
progress leaves step 0 no longer in progress. -/
theorem C2_witness :
    (stepAt (writeStepStatus (writeStepStatus (initRecord "p" 2) 0 .inProgress none 3)
        1 .inProgress none 5).steps 0).status ≠ .inProgress :=
  (C2_single_in_flight.1 (writeStepStatus (initRecord "p" 2) 0 .inProgress none 3)
    1 none 5 0 (by decide)).1

theorem inheritedStart_of_endTime (steps : List StepProgress) (idx now t : Nat)
    (h0 : 0 < idx) (ht : 0 < t)
    (hstat : (stepAt steps (idx - 1)).status ≠ .inProgress)
    (hend : (stepAt steps (idx - 1)).endTime = some t) :
    inheritedStart steps idx now = t := by
  have hne : idx ≠ 0 := by omega
  have hidx : idx - 1 ≠ idx := by omega
  rw [inheritedStart, if_neg hne, stepAt_clearOther, if_neg hidx, stepAt_padSteps,
    resetStale_of_not_inProgress _ hstat, hend]
  simp [Nat.pos_iff_ne_zero.mp ht]

theorem resetStale_endTime (s : StepProgress) (h : s.endTime = none) :
    (resetStale s).endTime = none := by
  by_cases hs : s.status = .inProgress <;> simp [resetStale, hs, h]

theorem inheritedStart_of_none (steps : List StepProgress) (idx now : Nat)
    (hend : (stepAt steps (idx - 1)).endTime = none) :
    inheritedStart steps idx now = now := by
  by_cases hne : idx = 0
  · rw [inheritedStart, if_pos hne]
  · have hidx : idx - 1 ≠ idx := by omega
    rw [inheritedStart, if_neg hne, stepAt_clearOther, if_neg hidx, stepAt_padSteps]
    rw [resetStale_endTime _ hend]

/-- C5: on a transition of step `i` to `in_progress` the start time is the
current time, unless `i > 0` and step `i - 1` has a recorded (nonzero) end
time, in which case that end time is inherited exactly, giving a gap-free
timeline. -/
theorem C5_contiguous_timeline (r : PlanProgress) (h : Reachable r) (idx now : Nat) :
    (∀ t, 0 < idx → 0 < t → (stepAt r.steps (idx - 1)).endTime = some t →
      (stepAt (writeStepStatus r idx .inProgress none now).steps idx).startTime = some t) ∧
    ((stepAt r.steps (idx - 1)).endTime = none →
      (stepAt (writeStepStatus r idx .inProgress none now).steps idx).startTime = some now) ∧
    (idx = 0 →
      (stepAt (writeStepStatus r idx .inProgress none now).steps idx).startTime = some now) := by
  refine ⟨fun t h0 ht hend => ?_, fun hend => ?_, fun h0 => ?_⟩
  · have hstat : (stepAt r.steps (idx - 1)).status ≠ .inProgress := by
      have htimes := reachable_timesOk h (idx - 1)
      have hterm : (stepAt r.steps (idx - 1)).status = .completed ∨
          (stepAt r.steps (idx - 1)).status = .failed :=
        htimes.1.mp (by simp [hend])
      rcases hterm with hc | hc <;> simp [hc]
    rw [stepAt_ws_inProgress_self,
      inheritedStart_of_endTime r.steps idx now t h0 ht hstat hend]
  · rw [stepAt_ws_inProgress_self, inheritedStart_of_none r.steps idx now hend]
  · subst h0
    rw [stepAt_ws_inProgress_self, inheritedStart, if_pos rfl]

/-- Witness for C5: step 0 of a two-step plan completes at time 7; starting
step 1 at wall-clock time 99 records start time 7, not 99. -/
theorem C5_witness :
    (stepAt (writeStepStatus (writeStepStatus (writeStepStatus (initRecord "p" 2)
        0 .inProgress none 3) 0 .completed none 7) 1 .inProgress none 99).steps 1).startTime =
      some 7 :=
  (C5_contiguous_timeline
    (writeStepStatus (writeStepStatus (initRecord "p" 2) 0 .inProgress none 3) 0 .completed none 7)
    (Reachable.write (Reachable.write (Reachable.init "p" 2) 0 .inProgress none 3)
      0 .completed none 7)
    1 99).1 7 (by decide) (by decide) (by decide)

/-- C6 counterexample: the claimed equivalence "startTime is set iff status is
not pending" fails on the code: a single `writeStepStatus` call can complete a
step straight from `pending`, leaving a reachable record whose step is
`completed` with no `startTime`. -/
theorem C6_counterexample :
    Reachable (writeStepStatus (initRecord "p" 1) 0 .completed none 5) ∧
    ¬ ((stepAt (writeStepStatus (initRecord "p" 1) 0 .completed none 5).steps 0).startTime ≠ none ↔
       (stepAt (writeStepStatus (initRecord "p" 1) 0 .completed none 5).steps 0).status ≠ .pending) :=
  ⟨Reachable.write (Reachable.init "p" 1) 0 .completed none 5, by decide⟩

/-- C6 (amended): for every step of every reachable record, `endTime` is set
iff the status is `completed` or `failed`; `startTime` is absent while the
status is `pending` and present while it is `in_progress` (a step driven
directly from `pending` to a terminal status keeps `startTime` unset, so the
converse direction claimed for `startTime` does not hold). -/
theorem C6_timestamp_discipline (r : PlanProgress) (h : Reachable r) (j : Nat) :
    ((stepAt r.steps j).endTime ≠ none ↔
      ((stepAt r.steps j).status = .completed ∨ (stepAt r.steps j).status = .failed)) ∧
    ((stepAt r.steps j).status = .pending → (stepAt r.steps j).startTime = none) ∧
    ((stepAt r.steps j).status = .inProgress → (stepAt r.steps j).startTime ≠ none) :=
  reachable_timesOk h j

/-- Witness for C6: the amended discipline evaluated on a concrete reachable
record with one step in progress. -/
theorem C6_witness :
    ((stepAt (writeStepStatus (initRecord "p" 1) 0 .inProgress none 4).steps 0).endTime ≠ none ↔
      ((stepAt (writeStepStatus (initRecord "p" 1) 0 .inProgress none 4).steps 0).status = .completed ∨
       (stepAt (writeStepStatus (initRecord "p" 1) 0 .inProgress none 4).steps 0).status = .failed)) ∧
    ((stepAt (writeStepStatus (initRecord "p" 1) 0 .inProgress none 4).steps 0).status = .pending →
      (stepAt (writeStepStatus (initRecord "p" 1) 0 .inProgress none 4).steps 0).startTime = none) ∧
    ((stepAt (writeStepStatus (initRecord "p" 1) 0 .inProgress none 4).steps 0).status = .inProgress →
      (stepAt (writeStepStatus (initRecord "p" 1) 0 .inProgress none 4).steps 0).startTime ≠ none) :=
  C6_timestamp_discipline (writeStepStatus (initRecord "p" 1) 0 .inProgress none 4)
    (Reachable.write (Reachable.init "p" 1) 0 .inProgress none 4) 0

/-- C7: a `writeStepStatus` call with a step index beyond the current array
length first extends the array with pending placeholders up to and including
that index: the resulting length is `max length (idx + 1)` and every newly
created index below the target is the pending placeholder. -/
theorem C7_defensive_growth (r : PlanProgress) (idx : Nat) (st : WriteStatus)
    (err : Option String) (now : Nat) :
    (writeStepStatus r idx st err now).steps.length = max r.steps.length (idx + 1) ∧
    ∀ j, r.steps.length ≤ j → j < idx →
      stepAt (writeStepStatus r idx st err now).steps j = pendingStep := by
  refine ⟨ws_length r idx st err now, fun j hlen hlt => ?_⟩
  have hj : j ≠ idx := by omega
  have hout : stepAt r.steps j = pendingStep := stepAt_ge_length _ _ hlen
  cases st with
  | inProgress => rw [stepAt_ws_inProgress_other _ _ _ _ _ hj, hout, resetStale_pendingStep]
  | completed => rw [stepAt_ws_completed_other _ _ _ _ _ hj, hout]
  | failed => rw [stepAt_ws_failed_other _ _ _ _ _ hj, hout]

/-- Witness for C7: writing status for step index 4 on a one-step record
yields a record of length 5 whose indices 1 through 3 are pending. -/
theorem C7_witness :
    (writeStepStatus (initRecord "p" 1) 4 .inProgress none 9).steps.length = 5 ∧
    stepAt (writeStepStatus (initRecord "p" 1) 4 .inProgress none 9).steps 1 = pendingStep ∧
    stepAt (writeStepStatus (initRecord "p" 1) 4 .inProgress none 9).steps 2 = pendingStep ∧
    stepAt (writeStepStatus (initRecord "p" 1) 4 .inProgress none 9).steps 3 = pendingStep :=
  ⟨((C7_defensive_growth (initRecord "p" 1) 4 .inProgress none 9).1).trans (by decide),
   (C7_defensive_growth (initRecord "p" 1) 4 .inProgress none 9).2 1 (by decide) (by decide),
   (C7_defensive_growth (initRecord "p" 1) 4 .inProgress none 9).2 2 (by decide) (by decide),
   (C7_defensive_growth (initRecord "p" 1) 4 .inProgress none 9).2 3 (by decide) (by decide)⟩

/-- C8: completing step `i` stamps `endTime`, clears the error message, and
advances `currentStepIndex` to `i + 1` exactly when that index is in bounds
(undefined otherwise); failing step `i` stamps `endTime`, stores the supplied
error message, and clears `currentStepIndex`. -/
theorem C8_terminal_transitions (r : PlanProgress) (idx now : Nat) (err : Option String) :
    ((stepAt (writeStepStatus r idx .completed err now).steps idx).status = .completed ∧
     (stepAt (writeStepStatus r idx .completed err now).steps idx).endTime = some now ∧
     (stepAt (writeStepStatus r idx .completed err now).steps idx).errorMessage = none ∧
     (writeStepStatus r idx .completed err now).currentStepIndex =
       (if idx + 1 < (writeStepStatus r idx .completed err now).steps.length then
          some (idx + 1)
        else none)) ∧
    ((stepAt (writeStepStatus r idx .failed err now).steps idx).status = .failed ∧
     (stepAt (writeStepStatus r idx .failed err now).steps idx).endTime = some now ∧
     (stepAt (writeStepStatus r idx .failed err now).steps idx).errorMessage = err ∧
     (writeStepStatus r idx .failed err now).currentStepIndex = none) := by
  refine ⟨⟨?_, ?_, ?_, ?_⟩, ⟨?_, ?_, ?_, ?_⟩⟩ <;>
    simp [stepAt_ws_completed_self, stepAt_ws_failed_self,
      ws_currentStepIndex_completed, ws_currentStepIndex_failed]

/-- C9: the snapshot initializer is idempotent in the plan identifier — a
second call with an id already seen is a complete no-op (no events, no store
reset), and a first call emits the plan snapshot and initial progress record
exactly once. -/
theorem C9_idempotent_snapshot (s : EmitState) (pid : String) (n m : Nat) :
    writeSnapshot (writeSnapshot s pid n) pid m = writeSnapshot s pid n ∧
    (pid ∈ s.emitted → writeSnapshot s pid n = s) ∧
    (pid ∉ s.emitted →
      (writeSnapshot s pid n).events =
        s.events ++ [⟨.planSnap, pid⟩, ⟨.progressSnap, pid⟩] ∧
      (writeSnapshot s pid n).store pid = some (initRecord pid n)) := by
  by_cases hmem : pid ∈ s.emitted
  · have h1 : writeSnapshot s pid n = s := by rw [writeSnapshot, if_pos hmem]
    have h2 : writeSnapshot s pid m = s := by rw [writeSnapshot, if_pos hmem]
    exact ⟨by rw [h1, h2], fun _ => h1, fun hn => absurd hmem hn⟩
  · have hmem2 : pid ∈ (writeSnapshot s pid n).emitted := by
      rw [writeSnapshot, if_neg hmem]
      exact List.mem_cons_self pid s.emitted
    refine ⟨?_, fun hc => absurd hc hmem, fun _ => ⟨?_, ?_⟩⟩
    · rw [writeSnapshot, if_pos hmem2]
    · rw [writeSnapshot, if_neg hmem]
    · rw [writeSnapshot, if_neg hmem]
      simp

/-- Witness for C9: on a state that has already emitted plan id `p`, a
further initializer call is the identity. -/
theorem C9_witness :
    writeSnapshot { emitted := ["p"], store := emptyStore, events := [] } "p" 2 =
      { emitted := ["p"], store := emptyStore, events := [] } :=
  (C9_idempotent_snapshot { emitted := ["p"], store := emptyStore, events := [] }
    "p" 2 2).2.1 (by decide)

/-- C10: frame property of `writeStepStatus` — a terminal write at an
in-bounds index changes no other step and does not change the array length or
the plan id; records stored under other plan identifiers are never modified;
and the `in_progress` transition leaves every other step that is not
currently in progress unchanged. -/
theorem C10_frame :
    (∀ (r : PlanProgress) (idx : Nat) (st : WriteStatus) (err : Option String) (now : Nat),
      (st = .completed ∨ st = .failed) → idx < r.steps.length →
        (writeStepStatus r idx st err now).steps.length = r.steps.length ∧
        (writeStepStatus r idx st err now).planId = r.planId ∧
        ∀ j, j ≠ idx → stepAt (writeStepStatus r idx st err now).steps j = stepAt r.steps j) ∧
    (∀ (store : Store) (pid q : String) (idx : Nat) (st : WriteStatus)
        (err : Option String) (now : Nat), q ≠ pid →
        storeWriteStepStatus store pid idx st err now q = store q) ∧
    (∀ (r : PlanProgress) (idx : Nat) (err : Option String) (now j : Nat), j ≠ idx →
      (stepAt r.steps j).status ≠ .inProgress →
        stepAt (writeStepStatus r idx .inProgress err now).steps j = stepAt r.steps j) := by
  refine ⟨fun r idx st err now hst hidx => ⟨?_, ws_planId _ _ _ _ _, fun j hj => ?_⟩,
    fun store pid q idx st err now hq => ?_, fun r idx err now j hj hs => ?_⟩
  · rw [ws_length]; omega
  · rcases hst with h | h <;> subst h
    · exact stepAt_ws_completed_other _ _ _ _ _ hj
    · exact stepAt_ws_failed_other _ _ _ _ _ hj
  · cases hsp : store pid with
    | none => rw [storeWriteStepStatus, hsp]
    | some r => rw [storeWriteStepStatus, hsp]; simp [hq]
  · rw [stepAt_ws_inProgress_other _ _ _ _ _ hj, resetStale_of_not_inProgress _ hs]

/-- Witness for C10: completing step 0 of a two-step record leaves step 1
untouched, and a write under plan id `p` leaves the record under `q` alone. -/
theorem C10_witness :
    stepAt (writeStepStatus (writeStepStatus (initRecord "p" 2) 0 .inProgress none 3)
        0 .completed none 7).steps 1 =
      stepAt (writeStepStatus (initRecord "p" 2) 0 .inProgress none 3).steps 1 ∧
    storeWriteStepStatus (initStore "p" 2) "p" 0 .completed none 7 "q" = initStore "p" 2 "q" :=
  ⟨(C10_frame.1 (writeStepStatus (initRecord "p" 2) 0 .inProgress none 3)
      0 .completed none 7 (Or.inl rfl) (by decide)).2.2 1 (by decide),
   C10_frame.2.1 (initStore "p" 2) "p" "q" 0 .completed none 7 (by decide)⟩

/-! ### The single-step executor `runStep`

The executor consumes the UI-message event stream of one model invocation.
Events are the closed union handled by the source loop: tool input, tool
output (ok or error), text delta, any other forwarded part, and a marker for
the stream read throwing an exception at that point.  External cancellation
is an arbitrary predicate on the iteration counter; the executor's own
`AbortController` state is tracked in `stepAbortSignal` (the `runStep` in
`route.ts` never invokes `stepAbort.abort()` itself — the controller is only
linked to the outer request signal). -/

inductive StreamEvent where
  | toolInput (toolCallId toolName : String)
  | toolOutputOk (toolCallId : String) (output : String)
  | toolOutputErr (toolCallId : String) (errorText : String)
  | textDelta (text : String)
  | otherPart
  | raiseErr (msg : String)
  deriving Repr, DecidableEq

/-- Terminal disposition tracked by the executor's local variable. -/
inductive RunStatus where
  | completed
  | aborted
  | failed
  deriving Repr, DecidableEq

/-- The plan-control tool names reserved for the orchestration layer. -/
def forbiddenTools : List String := ["outline", "plan", "progress"]

/-- Local state of the executor's streaming loop. -/
structure LoopState where
  finalStatus : RunStatus
  finalErrorMessage : Option String
  textBuffer : String
  fullText : String
  toolNames : List (String × String)
  stepOutputs : List (String × String)
  stepAbortSignal : Bool
  deriving Repr, DecidableEq

def initLoopState : LoopState :=
  { finalStatus := .completed, finalErrorMessage := none, textBuffer := "",
    fullText := "", toolNames := [], stepOutputs := [], stepAbortSignal := false }

/-- Loop control after one event: continue, break, or an exception escaped
the iteration. -/
inductive LoopCtl where
  | next
  | stop
  | thrown (msg : String)
  deriving Repr, DecidableEq

/-- The end-of-iteration cancellation check: if the step is aborted, record
the aborted disposition and break out of the loop. -/
def finishIter (abortedNow : Bool) (st : LoopState) : LoopState × LoopCtl :=
  if abortedNow then
    ({ st with finalStatus := .aborted, finalErrorMessage := some "aborted" }, .stop)
  else (st, .next)

/-- One iteration of the executor's streaming loop, translated from the
`while (true)` body in `runStep`.  A text delta on a non-final step is
buffered and possibly flushed as a step output, then the iteration
`continue`s (skipping the cancellation check, as in the source). -/
def processEvent (emitText : Bool) (abortedNow : Bool) (st : LoopState) :
    StreamEvent → LoopState × LoopCtl
  | .raiseErr msg => (st, .thrown msg)
  | .toolInput id name =>
    let st1 := { st with toolNames := (id, name) :: st.toolNames }
    let st2 :=
      if name ∈ forbiddenTools then
        { st1 with
          finalStatus := .failed,
          finalErrorMessage :=
            some ("Forbidden tool usage: " ++ name ++ " (progress is managed automatically)") }
      else st1
    finishIter abortedNow st2
  | .toolOutputOk id out =>
    let st1 :=
      match st.toolNames.lookup id with
      | some tn => { st with stepOutputs := st.stepOutputs ++ [(tn, out)] }
      | none => st
    finishIter abortedNow st1
  | .toolOutputErr id errText =>
    let st1 :=
      match st.toolNames.lookup id with
      | some tn => { st with stepOutputs := st.stepOutputs ++ [(tn, "Error: " ++ errText)] }
      | none => st
    ({ st1 with finalStatus := .failed, finalErrorMessage := some errText }, .stop)
  | .textDelta t =>
    let st1 := { st with textBuffer := st.textBuffer ++ t, fullText := st.fullText ++ t }
    if emitText then finishIter abortedNow st1
    else
      if 20 < st1.textBuffer.length ∨ t.contains '\n' = true then
        ({ st1 with
            stepOutputs := st1.stepOutputs ++ [("assistant", st1.textBuffer)],
            textBuffer := "" }, .next)
      else (st1, .next)
  | .otherPart => finishIter abortedNow st

/-- The executor's streaming loop over the event list; the counter `k` feeds
the external cancellation predicate.  The second component is the message of
an exception that escaped the loop, if any. -/
def runLoop (emitText : Bool) (aborted : Nat → Bool) :
    Nat → LoopState → List StreamEvent → LoopState × Option String
  | _, st, [] => (st, none)
  | k, st, e :: rest =>
    match processEvent emitText (st.stepAbortSignal || aborted k) st e with
    | (st1, .next) => runLoop emitText aborted (k + 1) st1 rest
    | (st1, .stop) => (st1, none)
    | (st1, .thrown msg) => (st1, some msg)

/-- What happens after the loop: an escaped exception is caught and recorded
as a failure; otherwise any residual buffered text is flushed (for non-final
steps). -/
def afterLoop (emitText : Bool) (p : LoopState × Option String) : LoopState :=
  match p.2 with
  | some msg => { p.1 with finalStatus := .failed, finalErrorMessage := some msg }
  | none =>
    if emitText then p.1
    else if p.1.textBuffer = "" then p.1
    else
      { p.1 with
        stepOutputs := p.1.stepOutputs ++ [("assistant", p.1.textBuffer)],
        textBuffer := "" }

/-- The accumulated text returned by the step: the trimmed accumulator on the
normal path, empty if an exception escaped the loop (the assignment inside
the `try` block is skipped). -/
def runOutput (p : LoopState × Option String) : String :=
  match p.2 with
  | some _ => ""
  | none => p.1.fullText.trim

/-- The single authoritative terminal write after the fault boundary:
`completed` when the local status is completed, otherwise `failed` with the
recorded error message (the `aborted` disposition is stored as a failure). -/
def terminalWrite (st : LoopState) : WriteStatus × Option String :=
  match st.finalStatus with
  | .completed => (.completed, none)
  | .aborted => (.failed, st.finalErrorMessage)
  | .failed => (.failed, st.finalErrorMessage)

/-- One `writeStepStatus` call as observed at the store boundary. -/
structure WriteCall where
  planId : String
  stepIndex : Nat
  status : WriteStatus
  errorMessage : Option String
  deriving Repr, DecidableEq

/-- Result of a `runStep` execution: the updated store, the ordered list of
`writeStepStatus` calls it made, the step outputs, the returned status and
output, and the executor-side abort-controller state. -/
structure RunResult where
  store : Store
  statusTrace : List WriteCall
  stepOutputs : List (String × String)
  runStatus : RunStatus
  output : String
  stepAbortSignal : Bool

/-- The step executor, translated from `runStep` in `route.ts`: mark the step
`in_progress` unconditionally first, stream events inside the fault boundary,
then perform exactly one terminal write.  `t1` and `t2` are the wall-clock
times of the two writes. -/
def runStep (store : Store) (pid : String) (idx : Nat) (emitText : Bool)
    (events : List StreamEvent) (aborted : Nat → Bool) (t1 t2 : Nat) : RunResult :=
  let p := runLoop emitText aborted 0 initLoopState events
  let stF := afterLoop emitText p
  let tw := terminalWrite stF
  { store := storeWriteStepStatus (storeWriteStepStatus store pid idx .inProgress none t1)
      pid idx tw.1 tw.2 t2,
    statusTrace := [⟨pid, idx, .inProgress, none⟩, ⟨pid, idx, tw.1, tw.2⟩],
    stepOutputs := stF.stepOutputs,
    runStatus := stF.finalStatus,
    output := runOutput p,
    stepAbortSignal := stF.stepAbortSignal }

/-- C1: every execution of `runStep` — streams that throw mid-stream,
forbidden tool invocations, tool error results, fired cancellation signals
included — calls `writeStepStatus` first with `in_progress` and then exactly
once with a terminal status (`completed` or `failed`) before returning: the
status trace always has exactly these two calls. -/
theorem C1_exact_terminal_write (store : Store) (pid : String) (idx : Nat)
    (emitText : Bool) (events : List StreamEvent) (aborted : Nat → Bool) (t1 t2 : Nat) :
    (runStep store pid idx emitText events aborted t1 t2).statusTrace.head? =
      some ⟨pid, idx, .inProgress, none⟩ ∧
    (runStep store pid idx emitText events aborted t1 t2).statusTrace.length = 2 ∧
    ∀ c ∈ (runStep store pid idx emitText events aborted t1 t2).statusTrace.tail,
      c.planId = pid ∧ c.stepIndex = idx ∧
        (c.status = .completed ∨ c.status = .failed) := by
  refine ⟨rfl, rfl, ?_⟩
  intro c hc
  simp only [runStep, List.tail_cons, List.mem_singleton] at hc
  subst hc
  refine ⟨rfl, rfl, ?_⟩
  rw [terminalWrite]
  cases (afterLoop emitText (runLoop emitText aborted 0 initLoopState events)).finalStatus <;>
    simp

/-- Witness for C1: on a stream that throws immediately, the terminal write
of the concrete run is a failed write for the step, as the theorem demands of
every element of the trace's tail. -/
theorem C1_witness :
    (⟨"p", 0, .failed, some "boom"⟩ : WriteCall).planId = "p" ∧
    (⟨"p", 0, .failed, some "boom"⟩ : WriteCall).stepIndex = 0 ∧
    ((⟨"p", 0, .failed, some "boom"⟩ : WriteCall).status = .completed ∨
     (⟨"p", 0, .failed, some "boom"⟩ : WriteCall).status = .failed) :=
  (C1_exact_terminal_write emptyStore "p" 0 true [.raiseErr "boom"]
    (fun _ => false) 1 2).2.2 ⟨"p", 0, .failed, some "boom"⟩ (by decide)

/-! ### Monotonicity of the executor's local disposition -/

theorem processEvent_completed (emitText ab : Bool) (st : LoopState) (e : StreamEvent)
    (h : ((processEvent emitText ab st e).1).finalStatus = .completed) :
    st.finalStatus = .completed := by
  cases e <;>
    simp only [processEvent, finishIter] at h <;>
    (repeat' split at h) <;> simp_all

theorem processEvent_abortSignal (emitText ab : Bool) (st : LoopState) (e : StreamEvent) :
    ((processEvent emitText ab st e).1).stepAbortSignal = st.stepAbortSignal := by
  cases e <;>
    simp only [processEvent, finishIter] <;>
    (repeat' split) <;> simp

theorem runLoop_completed (emitText : Bool) (aborted : Nat → Bool) :
    ∀ (evs : List StreamEvent) (k : Nat) (st : LoopState),
      ((runLoop emitText aborted k st evs).1).finalStatus = .completed →
      st.finalStatus = .completed := by
  intro evs
  induction evs with
  | nil => intro k st h; exact h
  | cons e rest ih =>
    intro k st h
    rcases hpe : processEvent emitText (st.stepAbortSignal || aborted k) st e with ⟨st1, ctl⟩
    have h1 : ((processEvent emitText (st.stepAbortSignal || aborted k) st e).1).finalStatus =
        .completed := by
      rw [hpe]
      cases ctl with
      | next =>
        rw [runLoop, hpe] at h
        exact ih (k + 1) st1 h
      | stop => rw [runLoop, hpe] at h; exact h
      | thrown msg => rw [runLoop, hpe] at h; exact h
    exact processEvent_completed _ _ _ _ h1

theorem runLoop_abortSignal (emitText : Bool) (aborted : Nat → Bool) :
    ∀ (evs : List StreamEvent) (k : Nat) (st : LoopState),
      ((runLoop emitText aborted k st evs).1).stepAbortSignal = st.stepAbortSignal := by
  intro evs
  induction evs with
  | nil => intro k st; rfl
  | cons e rest ih =>
    intro k st
    rcases hpe : processEvent emitText (st.stepAbortSignal || aborted k) st e with ⟨st1, ctl⟩
    have h1 : st1.stepAbortSignal = st.stepAbortSignal := by
      have := processEvent_abortSignal emitText (st.stepAbortSignal || aborted k) st e
      rwa [hpe] at this
    cases ctl with
    | next => rw [runLoop, hpe]; rw [ih (k + 1) st1]; exact h1
    | stop => rw [runLoop, hpe]; exact h1
    | thrown msg => rw [runLoop, hpe]; exact h1

theorem runLoop_cons_completed (emitText : Bool) (aborted : Nat → Bool) (k : Nat)
    (st : LoopState) (e : StreamEvent) (rest : List StreamEvent)
    (h : ((runLoop emitText aborted k st (e :: rest)).1).finalStatus = .completed) :
    ((processEvent emitText (st.stepAbortSignal || aborted k) st e).1).finalStatus =
      .completed := by
  rcases hpe : processEvent emitText (st.stepAbortSignal || aborted k) st e with ⟨st1, ctl⟩
  cases ctl with
  | next =>
    rw [runLoop, hpe] at h
    exact runLoop_completed _ _ _ _ _ h
  | stop => rw [runLoop, hpe] at h; exact h
  | thrown msg => rw [runLoop, hpe] at h; exact h

theorem afterLoop_completed (emitText : Bool) (p : LoopState × Option String)
    (h : (afterLoop emitText p).finalStatus = .completed) :
    (p.1).finalStatus = .completed := by
  rcases p with ⟨st, thr⟩
  cases thr with
  | none =>
    cases emitText <;> by_cases hb : st.textBuffer = "" <;>
      simp [afterLoop, hb] at h <;> exact h
  | some msg => simp [afterLoop] at h

theorem afterLoop_abortSignal (emitText : Bool) (p : LoopState × Option String) :
    (afterLoop emitText p).stepAbortSignal = (p.1).stepAbortSignal := by
  rcases p with ⟨st, thr⟩
  cases thr with
  | none =>
    cases emitText <;> by_cases hb : st.textBuffer = "" <;> simp [afterLoop, hb]
  | some msg => simp [afterLoop]

theorem terminalWrite_failed (st : LoopState) (h : st.finalStatus ≠ .completed) :
    (terminalWrite st).1 = .failed := by
  rw [terminalWrite]
  cases hs : st.finalStatus <;> simp_all

theorem processEvent_forbidden_not_completed (emitText ab : Bool) (st : LoopState)
    (id name : String) (hf : name ∈ forbiddenTools) :
    ((processEvent emitText ab st (.toolInput id name)).1).finalStatus ≠ .completed := by
  cases ab <;> simp [processEvent, finishIter, hf]

/-- C4 counterexample: in `route.ts`'s `runStep`, a step whose model stream
invokes the forbidden tool `plan` is marked failed with a descriptive error,
but the step's cancellation token is never triggered by the executor (the
abort-controller state stays `false` although the claim says it is
triggered). -/
theorem C4_counterexample :
    (runStep emptyStore "p" 0 true [.toolInput "c1" "plan"]
        (fun _ => false) 1 2).runStatus = .failed ∧
    (runStep emptyStore "p" 0 true [.toolInput "c1" "plan"]
        (fun _ => false) 1 2).statusTrace =
      [⟨"p", 0, .inProgress, none⟩,
       ⟨"p", 0, .failed, some "Forbidden tool usage: plan (progress is managed automatically)"⟩] ∧
    ¬ ((runStep emptyStore "p" 0 true [.toolInput "c1" "plan"]
        (fun _ => false) 1 2).stepAbortSignal = true) := by
  refine ⟨by decide, by decide, by decide⟩

/-- C4 (amended): when the executor observes a tool-invocation event whose
name is in the forbidden set, the step is immediately marked for failure with
a descriptive error naming the forbidden tool and the loop keeps draining the
stream; the invocation's cancellation token is NOT triggered by the executor,
and the step's one terminal write is `failed`. -/
theorem C4_forbidden_marks_failed (id name : String)
    (hf : name ∈ forbiddenTools) :
    (∀ (emitText : Bool) (st : LoopState),
      (processEvent emitText false st (.toolInput id name)).1.finalStatus = .failed ∧
      (processEvent emitText false st (.toolInput id name)).1.finalErrorMessage =
        some ("Forbidden tool usage: " ++ name ++ " (progress is managed automatically)") ∧
      (processEvent emitText false st (.toolInput id name)).2 = .next) ∧
    (∀ (store : Store) (pid : String) (idx : Nat) (emitText : Bool)
        (rest : List StreamEvent) (aborted : Nat → Bool) (t1 t2 : Nat),
      (∀ c ∈ (runStep store pid idx emitText (.toolInput id name :: rest)
          aborted t1 t2).statusTrace.tail, c.status = .failed) ∧
      (runStep store pid idx emitText (.toolInput id name :: rest)
          aborted t1 t2).stepAbortSignal = false) := by
  constructor
  · intro emitText st
    refine ⟨?_, ?_, ?_⟩ <;> simp [processEvent, finishIter, hf]
  · intro store pid idx emitText rest aborted t1 t2
    constructor
    · intro c hc
      simp only [runStep, List.tail_cons, List.mem_singleton] at hc
      subst hc
      show (terminalWrite _).1 = .failed
      apply terminalWrite_failed
      intro hcomp
      have h1 := afterLoop_completed _ _ hcomp
      have h2 := runLoop_cons_completed _ _ _ _ _ _ h1
      exact processEvent_forbidden_not_completed emitText _ initLoopState id name hf h2
    · show (afterLoop _ _).stepAbortSignal = false
      rw [afterLoop_abortSignal, runLoop_abortSignal]
      rfl

/-- Witness for the amended C4 at the concrete forbidden tool name `plan`. -/
theorem C4_witness :
    (processEvent true false initLoopState (.toolInput "c1" "plan")).1.finalStatus = .failed ∧
    (runStep emptyStore "q" 1 true [.toolInput "c1" "plan"]
        (fun _ => false) 1 2).stepAbortSignal = false :=
  ⟨((C4_forbidden_marks_failed "c1" "plan" (by decide)).1 true initLoopState).1,
   ((C4_forbidden_marks_failed "c1" "plan" (by decide)).2 emptyStore "q" 1 true []
     (fun _ => false) 1 2).2⟩

/-! ### The orchestrator's sequential loop -/

/-- External inputs consumed by one step of the loop: the step's event
stream, its cancellation predicate, and the wall-clock times of its two
status writes. -/
structure StepInput where
  events : List StreamEvent
  abortedAt : Nat → Bool
  t1 : Nat
  t2 : Nat

/-- The orchestrator loop translated from the `for` loops in `POST`
(identical for the outline and the plan path): before each step the outer
cancellation is checked; the step executor runs the step; if its result
status is not `completed` the loop stops.  `k` is the number of steps still
to run and `i` the index of the next step; the last step is the one with
`k = 0` remaining afterwards (its text is emitted).  Returns the final
store, the concatenated status-write trace, and `some i` when the loop
halted at step `i` (`none` when every step completed). -/
def execSteps (pid : String) (inputs : Nat → StepInput) (outerAb : Nat → Bool) :
    Nat → Nat → Store → Store × List WriteCall × Option Nat
  | 0, _, store => (store, [], none)
  | k + 1, i, store =>
    if outerAb i then (store, [], some i)
    else
      let inp := inputs i
      let res := runStep store pid i (k == 0) inp.events inp.abortedAt inp.t1 inp.t2
      if res.runStatus = .completed then
        let rest := execSteps pid inputs outerAb k (i + 1) res.store
        (rest.1, res.statusTrace ++ rest.2.1, rest.2.2)
      else (res.store, res.statusTrace, some i)

theorem runStep_trace_stepIndex (store : Store) (pid : String) (idx : Nat)
    (emitText : Bool) (events : List StreamEvent) (aborted : Nat → Bool) (t1 t2 : Nat) :
    ∀ c ∈ (runStep store pid idx emitText events aborted t1 t2).statusTrace,
      c.stepIndex = idx := by
  intro c hc
  simp only [runStep, List.mem_cons, List.mem_singleton, List.not_mem_nil, or_false] at hc
  rcases hc with h | h <;> subst h <;> rfl

theorem storeWrite_lookup_some (store : Store) (pid : String) (idx : Nat)
    (st : WriteStatus) (err : Option String) (now : Nat) (r : PlanProgress)
    (h : store pid = some r) :
    storeWriteStepStatus store pid idx st err now pid =
      some (writeStepStatus r idx st err now) := by
  rw [storeWriteStepStatus, h]
  simp

theorem pendingPreserved (r : PlanProgress) (idx : Nat) (st : WriteStatus)
    (err : Option String) (now j : Nat) (hj : j ≠ idx)
    (hp : stepAt r.steps j = pendingStep) :
    stepAt (writeStepStatus r idx st err now).steps j = pendingStep := by
  cases st with
  | inProgress => rw [stepAt_ws_inProgress_other _ _ _ _ _ hj, hp, resetStale_pendingStep]
  | completed => rw [stepAt_ws_completed_other _ _ _ _ _ hj, hp]
  | failed => rw [stepAt_ws_failed_other _ _ _ _ _ hj, hp]

theorem runStep_store_pid (store : Store) (pid : String) (idx : Nat)
    (emitText : Bool) (events : List StreamEvent) (aborted : Nat → Bool) (t1 t2 : Nat)
    (r : PlanProgress) (h : store pid = some r) :
    ∃ st2 err2,
      (runStep store pid idx emitText events aborted t1 t2).store pid =
        some (writeStepStatus (writeStepStatus r idx .inProgress none t1) idx st2 err2 t2) := by
  have h1 := storeWrite_lookup_some store pid idx .inProgress none t1 r h
  have h2 := storeWrite_lookup_some
    (storeWriteStepStatus store pid idx .inProgress none t1) pid idx
    (terminalWrite (afterLoop emitText (runLoop emitText aborted 0 initLoopState events))).1
    (terminalWrite (afterLoop emitText (runLoop emitText aborted 0 initLoopState events))).2
    t2 _ h1
  exact ⟨_, _, h2⟩

theorem execSteps_halt_bounds (pid : String) (inputs : Nat → StepInput)
    (outerAb : Nat → Bool) :
    ∀ (k i : Nat) (store : Store) (hi : Nat),
      (execSteps pid inputs outerAb k i store).2.2 = some hi →
      i ≤ hi ∧ ∀ c ∈ (execSteps pid inputs outerAb k i store).2.1,
        i ≤ c.stepIndex ∧ c.stepIndex ≤ hi := by
  intro k
  induction k with
  | zero =>
    intro i store hi h
    simp [execSteps] at h
  | succ k ih =>
    intro i store hi h
    by_cases hab : outerAb i
    · rw [execSteps, if_pos hab] at h ⊢
      simp only [Option.some_inj] at h
      subst h
      exact ⟨Nat.le_refl i, by simp⟩
    · rw [execSteps, if_neg hab] at h ⊢
      by_cases hres : (runStep store pid i (k == 0) (inputs i).events (inputs i).abortedAt
          (inputs i).t1 (inputs i).t2).runStatus = .completed
      · simp only [hres, if_pos] at h ⊢
        rcases ih (i + 1) _ hi h with ⟨hle, hmem⟩
        refine ⟨by omega, fun c hc => ?_⟩
        rcases List.mem_append.mp hc with hc1 | hc2
        · have := runStep_trace_stepIndex _ _ _ _ _ _ _ _ c hc1
          omega
        · rcases hmem c hc2 with ⟨h1, h2⟩
          exact ⟨by omega, h2⟩
      · simp only [hres, if_neg, if_false] at h ⊢
        simp only [Option.some_inj] at h
        subst h
        refine ⟨Nat.le_refl i, fun c hc => ?_⟩
        have := runStep_trace_stepIndex _ _ _ _ _ _ _ _ c hc
        omega

theorem execSteps_pending (pid : String) (inputs : Nat → StepInput)
    (outerAb : Nat → Bool) :
    ∀ (k i : Nat) (store : Store) (r : PlanProgress),
      store pid = some r →
      (∀ j, i ≤ j → stepAt r.steps j = pendingStep) →
      ∀ hi, (execSteps pid inputs outerAb k i store).2.2 = some hi →
      ∀ r', (execSteps pid inputs outerAb k i store).1 pid = some r' →
      ∀ j, hi < j → stepAt r'.steps j = pendingStep := by
  intro k
  induction k with
  | zero =>
    intro i store r _ _ hi h
    simp [execSteps] at h
  | succ k ih =>
    intro i store r hsr hpend hi h r' hr' j hj
    by_cases hab : outerAb i
    · rw [execSteps, if_pos hab] at h hr'
      simp only [Option.some_inj] at h
      subst h
      have hr'' : store pid = some r' := hr'
      rw [hsr] at hr''
      simp only [Option.some_inj] at hr''
      subst hr''
      exact hpend j (by omega)
    · rw [execSteps, if_neg hab] at h hr'
      rcases runStep_store_pid store pid i (k == 0) (inputs i).events (inputs i).abortedAt
          (inputs i).t1 (inputs i).t2 r hsr with ⟨st2, err2, hs2⟩
      have hpend2 : ∀ j2, i + 1 ≤ j2 →
          stepAt (writeStepStatus (writeStepStatus r i .inProgress none (inputs i).t1)
            i st2 err2 (inputs i).t2).steps j2 = pendingStep := by
        intro j2 hj2
        have hne : j2 ≠ i := by omega
        exact pendingPreserved _ _ _ _ _ _ hne
          (pendingPreserved _ _ _ _ _ _ hne (hpend j2 (by omega)))
      by_cases hres : (runStep store pid i (k == 0) (inputs i).events (inputs i).abortedAt
          (inputs i).t1 (inputs i).t2).runStatus = .completed
      · simp only [hres, if_pos] at h hr'
        exact ih (i + 1) _ _ hs2 hpend2 hi h r' hr' j hj
      · simp only [hres, if_neg, if_false] at h hr'
        simp only [Option.some_inj] at h
        subst h
        have hr'' : (runStep store pid i (k == 0) (inputs i).events (inputs i).abortedAt
            (inputs i).t1 (inputs i).t2).store pid = some r' := hr'
        rw [hs2] at hr''
        simp only [Option.some_inj] at hr''
        subst hr''
        exact hpend2 j (by omega)

/-- C3: the orchestrator runs the plan's steps strictly in order and stops at
the first step whose executor result is not `completed`: when the loop over
an `n`-step plan halts at step `hi`, every `writeStepStatus` call in the run
targets a step index at most `hi`, and in the final stored record every step
with index greater than `hi` is still the pending placeholder. -/
theorem C3_halt_on_failure (pid : String) (inputs : Nat → StepInput)
    (outerAb : Nat → Bool) (n hi : Nat)
    (h : (execSteps pid inputs outerAb n 0 (initStore pid n)).2.2 = some hi) :
    (∀ c ∈ (execSteps pid inputs outerAb n 0 (initStore pid n)).2.1, c.stepIndex ≤ hi) ∧
    ∀ r, (execSteps pid inputs outerAb n 0 (initStore pid n)).1 pid = some r →
      ∀ j, hi < j → stepAt r.steps j = pendingStep := by
  constructor
  · intro c hc
    exact ((execSteps_halt_bounds pid inputs outerAb n 0 _ hi h).2 c hc).2
  · intro r hr j hj
    refine execSteps_pending pid inputs outerAb n 0 (initStore pid n)
      (initRecord pid n) ?_ ?_ hi h r hr j hj
    · simp [initStore]
    · intro j2 _
      simp [initRecord, stepAt_replicate]

/-- Inputs for the C3 witness: every step's stream invokes the forbidden
tool `plan`, so step 0 fails immediately. -/
def c3Inputs : Nat → StepInput :=
  fun _ => ⟨[.toolInput "c1" "plan"], fun _ => false, 1, 2⟩

/-- Witness for C3: a 3-step plan whose first step invokes a forbidden tool
halts at step 0; all status writes target step 0 and steps 1 and 2 stay
pending. -/
theorem C3_witness :
    (execSteps "p" c3Inputs (fun _ => false) 3 0 (initStore "p" 3)).2.2 = some 0 ∧
    (∀ c ∈ (execSteps "p" c3Inputs (fun _ => false) 3 0 (initStore "p" 3)).2.1,
      c.stepIndex ≤ 0) ∧
    ∀ r, (execSteps "p" c3Inputs (fun _ => false) 3 0 (initStore "p" 3)).1 "p" = some r →
      ∀ j, 0 < j → stepAt r.steps j = pendingStep :=
  ⟨by decide,
   (C3_halt_on_failure "p" c3Inputs (fun _ => false) 3 0 (by decide)).1,
   (C3_halt_on_failure "p" c3Inputs (fun _ => false) 3 0 (by decide)).2⟩

end PlanEngine
